import Mathlib

/-!
# Verification of the k8sutils HPA scale-strategy engine and gauge renderer

This file is a shallow embedding, in Lean 4, of the core logic of the
k8sutils repository (Go): the expression parser and strategy resolver
(`getStrategy`), the min/max invariant reconcilers (`reconcileMax`,
`reconcileMin`), the strategy application bodies, and the graphical range
renderer (`formatMarks` in `output.go`).

Modelling conventions:

* Go `int32` replica counts and the Go `int` CPU target are modelled as `ℤ`.
  All `int32(...)` conversions in the source are modelled as the identity on
  the mathematical value; Go wraps (for integer sources) or is
  implementation-specific (for float sources) outside `[-2^31, 2^31)`, and
  every concrete value appearing in the theorems below is far inside range.
* Go `float64` arithmetic is modelled exactly over `ℚ`: `strconv.ParseFloat`
  of a decimal literal is modelled as the exact decimal value (ParseFloat
  rounds to the nearest `float32`; every concrete literal used in a theorem
  below, such as `100`, `1.5`, `50`, is exactly representable in `float32`,
  where the abstraction is exact), and `/`, `*`, `math.Ceil` and the
  truncating float-to-int conversion are modelled by the corresponding exact
  rational operations.
* A Go pointer field (`*int32`) is modelled as `Option ℤ`; dereferencing a
  `nil` pointer is a runtime crash, modelled by propagating `none` through
  the `Option` monad: a function returning `none` models a Go panic.
* Go strings at the call sites modelled here are ASCII, so Go's byte-level
  indexing and slicing coincide with the character-level `List Char`
  operations used below.
-/

/-- Truncation toward zero of a rational, modelling Go's float-to-integer
conversion `int32(x)` / `int(x)` (which truncates toward zero). -/
def truncQ (q : ℚ) : ℤ := if 0 ≤ q then ⌊q⌋ else ⌈q⌉

/-- Rounding to the nearest integer, halves away from zero for nonnegative
arguments.  This definition follows the spec's words ("round"); it is *not*
taken from the source, and exists only to be compared against the source's
truncating conversion `truncQ`. -/
def roundSpec (q : ℚ) : ℤ := ⌊q + 1 / 2⌋

/-- The fields of `v1.HorizontalPodAutoscaler` read or written by the core
(`hpa.Spec.MinReplicas : *int32`, `hpa.Spec.MaxReplicas : int32`,
`hpa.Spec.TargetCPUUtilizationPercentage : *int32`).  The two pointer fields
are `Option ℤ`; `none` models a nil pointer. -/
structure HpaSpec where
  MinReplicas : Option ℤ
  MaxReplicas : ℤ
  TargetCPUUtilizationPercentage : Option ℤ
deriving DecidableEq

/-- The command arguments consumed by `getStrategy`: the `Minimum` and
`Maximum` expression strings and the `CPUTarget` integer of the Go `Hpa`
program struct.  (The remaining fields of the Go struct configure the
cluster collaborators and are never read by the core.) -/
structure Hpa where
  Minimum : String
  Maximum : String
  CPUTarget : ℤ
deriving DecidableEq

/-- The regular expression `^[0-9]+$` (the Go package-level `Number`),
as a character-level matcher. -/
def NumberMatch (s : String) : Bool :=
  !s.data.isEmpty && s.data.all Char.isDigit

/-- The character class `[0-9\\.]` of the Go `Percentage` and `Multiply`
regexes.  NB in a Go backtick literal the regex source is `^[0-9\\.]+%$`,
whose class contains the digits, the literal backslash and the literal dot. -/
def exprClass (c : Char) : Bool :=
  c.isDigit || c = '\\' || c = '.'

/-- The regular expression `^[0-9\\.]+%$` (the Go package-level `Percentage`). -/
def PercentageMatch (s : String) : Bool :=
  !s.data.dropLast.isEmpty && s.data.dropLast.all exprClass
    && s.data.getLast? = some '%'

/-- The regular expression `^[0-9\\.]+x$` (the Go package-level `Multiply`). -/
def MultiplyMatch (s : String) : Bool :=
  !s.data.dropLast.isEmpty && s.data.dropLast.all exprClass
    && s.data.getLast? = some 'x'

/-- Decimal value of a digit string. -/
def digitsVal (l : List Char) : ℕ :=
  l.foldl (fun a c => 10 * a + (c.toNat - 48)) 0

/-- Model of `strconv.Atoi`, modelled on the strings its call sites allow (the
`Number`-matched, digits-only strings): the decimal value when it fits in a
signed 64-bit integer, `none` (an error) otherwise. -/
def atoiGo (s : String) : Option ℤ :=
  if NumberMatch s ∧ (digitsVal s.data : ℤ) ≤ 2 ^ 63 - 1 then
    some (digitsVal s.data)
  else none

/-- Model of `strconv.ParseFloat(s, 32)`, modelled on the strings its call sites
allow (prefixes matched by the `[0-9\\.]+` class): the exact decimal value
when `s` is a nonempty string of digits with at most one dot (and not `"."`
alone), `none` (an error) otherwise — a string containing a backslash or two
dots fails to convert, exactly as in Go.  The rounding of the decimal value
to the nearest `float32` is abstracted away (see the file comment). -/
def parseFloatGo (s : String) : Option ℚ :=
  let l := s.data
  if !l.isEmpty ∧ l.all (fun c => c.isDigit || c = '.') ∧ l.count '.' ≤ 1
      ∧ l ≠ ['.'] then
    let a := l.takeWhile (fun c => c ≠ '.')
    let b := (l.dropWhile (fun c => c ≠ '.')).drop 1
    some ((digitsVal a : ℚ) + (digitsVal b : ℚ) / (10 : ℚ) ^ b.length)
  else none

/-- The slice `s[:len(s)-1]`: the expression string with its trailing `%` or `x`
removed before numeric conversion. -/
def dropLastStr (s : String) : String := String.mk s.data.dropLast

/-- The error results of `getStrategy`: a numeric-conversion error
propagated from `strconv` (`parseError`), or the literal
`errors.New("invalid arguments")` of the default switch case. -/
inductive StratError where
  | parseError
  | invalidArguments
deriving DecidableEq

/-- The strategy closures returned by `getStrategy`, defunctionalised: each
constructor records which switch case produced the closure and the numeric
payload the closure captured. -/
inductive Strat where
  | setCPU (n : ℤ)
  | minAbs (n : ℤ)
  | minPct (p : ℚ)
  | minMul (f : ℚ)
  | maxAbs (n : ℤ)
  | maxPct (p : ℚ)
  | maxMul (f : ℚ)
deriving DecidableEq

/-- Model of `(program *Hpa) getStrategy()`: the switch checks `CPUTarget > 0`, then
`Number`/`Percentage`/`Multiply` against `Minimum`, then the same three
against `Maximum`, and falls through to `errors.New("invalid arguments")`.
Each matched case converts the numeric payload and returns the
corresponding closure, or propagates the conversion error. -/
def getStrategy (program : Hpa) : Except StratError Strat :=
  if 0 < program.CPUTarget then .ok (.setCPU program.CPUTarget)
  else if NumberMatch program.Minimum then
    match atoiGo program.Minimum with
    | none => .error .parseError
    | some num => .ok (.minAbs num)
  else if PercentageMatch program.Minimum then
    match parseFloatGo (dropLastStr program.Minimum) with
    | none => .error .parseError
    | some percent => .ok (.minPct percent)
  else if MultiplyMatch program.Minimum then
    match parseFloatGo (dropLastStr program.Minimum) with
    | none => .error .parseError
    | some multiplier => .ok (.minMul multiplier)
  else if NumberMatch program.Maximum then
    match atoiGo program.Maximum with
    | none => .error .parseError
    | some num => .ok (.maxAbs num)
  else if PercentageMatch program.Maximum then
    match parseFloatGo (dropLastStr program.Maximum) with
    | none => .error .parseError
    | some percent => .ok (.maxPct percent)
  else if MultiplyMatch program.Maximum then
    match parseFloatGo (dropLastStr program.Maximum) with
    | none => .error .parseError
    | some multiplier => .ok (.maxMul multiplier)
  else .error .invalidArguments

/-- Model of `reconcileMax`: `if *hpa.Spec.MinReplicas > hpa.Spec.MaxReplicas then
hpa.Spec.MaxReplicas = *hpa.Spec.MinReplicas`.  The unguarded dereference of
`MinReplicas` panics on nil, modelled by `none`. -/
def reconcileMax (hpa : HpaSpec) : Option HpaSpec :=
  match hpa.MinReplicas with
  | none => none
  | some m =>
    if m > hpa.MaxReplicas then some { hpa with MaxReplicas := m }
    else some hpa

/-- Model of `reconcileMin`: `if *hpa.Spec.MinReplicas > hpa.Spec.MaxReplicas then
*hpa.Spec.MinReplicas = hpa.Spec.MaxReplicas`.  The unguarded dereference of
`MinReplicas` panics on nil, modelled by `none`. -/
def reconcileMin (hpa : HpaSpec) : Option HpaSpec :=
  match hpa.MinReplicas with
  | none => none
  | some m =>
    if m > hpa.MaxReplicas then
      some { hpa with MinReplicas := some hpa.MaxReplicas }
    else some hpa

/-- The bodies of the seven closures returned by `getStrategy`, applied to a
record.  Reading through a nil pointer yields `none` (a panic); note that the
absolute-minimum case *replaces* the `MinReplicas` pointer (`&minimum`)
while the percentage-minimum case writes *through* it (`*hpa.Spec.MinReplicas
= minimum`), and that the multiplier cases truncate toward zero
(`int32(float64(v) * multiplier)`) while the percentage cases take a ceiling
(`int32(math.Ceil(percent / 100 * float64(max)))`). -/
def applyStrat (s : Strat) (hpa : HpaSpec) : Option HpaSpec :=
  match s with
  | .setCPU n =>
    match hpa.TargetCPUUtilizationPercentage with
    | none => none
    | some _ => some { hpa with TargetCPUUtilizationPercentage := some n }
  | .minAbs n => reconcileMax { hpa with MinReplicas := some n }
  | .minPct p =>
    match hpa.MinReplicas with
    | none => none
    | some _ =>
      reconcileMax { hpa with MinReplicas := some ⌈p / 100 * (hpa.MaxReplicas : ℚ)⌉ }
  | .minMul f =>
    match hpa.MinReplicas with
    | none => none
    | some m =>
      reconcileMax { hpa with MinReplicas := some (truncQ ((m : ℚ) * f)) }
  | .maxAbs n => reconcileMin { hpa with MaxReplicas := n }
  | .maxPct p =>
    reconcileMin { hpa with MaxReplicas := ⌈p / 100 * (hpa.MaxReplicas : ℚ)⌉ }
  | .maxMul f =>
    reconcileMin { hpa with MaxReplicas := truncQ ((hpa.MaxReplicas : ℚ) * f) }

/-- The minimum/maximum-targeting strategies (every `getStrategy` result
except the CPU-target one). -/
def targetsMinOrMax : Strat → Bool
  | .setCPU _ => false
  | _ => true

/-- The minimum-targeting strategies. -/
def targetsMin : Strat → Bool
  | .minAbs _ => true
  | .minPct _ => true
  | .minMul _ => true
  | _ => false

/-- The maximum-targeting strategies. -/
def targetsMax : Strat → Bool
  | .maxAbs _ => true
  | .maxPct _ => true
  | .maxMul _ => true
  | _ => false

/-- Any of the three expression shapes matches: the field counts as "set"
for the resolver's switch. -/
def matchesAny (s : String) : Bool :=
  NumberMatch s || PercentageMatch s || MultiplyMatch s

/-- A resolution outcome that targets the field selected by `t`: either a
strategy of that family, or a numeric-conversion error raised while already
committed to that field's switch case. -/
def resolvesToward (r : Except StratError Strat) (t : Strat → Bool) : Prop :=
  match r with
  | .ok s => t s = true
  | .error e => e = .parseError

/-! ## The graphical range renderer (`output.go`)

The `strings.Builder` contents are modelled as a `List Char` (the strings
involved are ASCII, so Go's byte count `builder.Len()` equals the character
count). -/

/-- The package variable `field = strings.Repeat(".", 40)`. -/
def field : List Char := List.replicate 40 '.'

/-- The package variable `spaces = strings.Repeat(" ", len(field))`. -/
def spaces : List Char := List.replicate 40 ' '

/-- A renderer input: `Mark{Mark string; Postion int}` (field names as in the
source, typo included). -/
structure Mark where
  Mark : String
  Postion : ℤ
deriving DecidableEq

/-- The reserved sentinel `Max = Mark{"|", math.MaxInt}` (64-bit `int`). -/
def MaxSentinel : Mark := ⟨"|", 2 ^ 63 - 1⟩

/-- The Go slice expression `s[0:n]`: the first `n` bytes when
`0 ≤ n ≤ len(s)`, a run-time panic (`none`) otherwise — in particular for a
negative `n`. -/
def goSlice (s : List Char) (n : ℤ) : Option (List Char) :=
  if 0 ≤ n ∧ n ≤ (s.length : ℤ) then some (s.take n.toNat)
  else none

/-- The comparison `marks[i].Postion < marks[j].Postion` passed to
`sort.Slice`, as the non-strict total order a sorted result satisfies. -/
def rleMark (a b : Mark) : Prop := a.Postion ≤ b.Postion

instance : DecidableRel rleMark := fun a b =>
  inferInstanceAs (Decidable (a.Postion ≤ b.Postion))

instance : IsTotal Mark rleMark := ⟨fun a b => Int.le_total a.Postion b.Postion⟩

instance : IsTrans Mark rleMark := ⟨fun _ _ _ => le_trans⟩

/-- Model of `sort.Slice(marks, ...)` sorting by position.  Go's sort is unstable
(the relative order of equal positions is unspecified); it is modelled here
by a stable insertion sort, one of the orders `sort.Slice` may produce. -/
def sortMarks (marks : List Mark) : List Mark :=
  List.insertionSort rleMark marks

/-- One iteration of the mark loop of `formatMarks`.  The state is the
builder contents and the `cur` cursor; `first` is `marks[0]` of the sorted
slice.  A mark with `Postion > max` is skipped before anything is written;
a positive gap `chars` writes `field[0:chars-1]` and then the label
(`cur = cur + chars + len(mark.Mark)`); a non-positive gap writes the bare
label, but only for the first mark. -/
def markStep (mx : ℤ) (first : Option Mark) (st : List Char × ℤ)
    (mark : Mark) : Option (List Char × ℤ) :=
  let pos : ℤ := truncQ ((mark.Postion : ℚ) / (mx : ℚ) * (field.length : ℚ))
  if mark.Postion > mx then some st
  else
    let chars : ℤ := pos - st.2
    if chars > 0 then
      (goSlice field (chars - 1)).map fun f =>
        (st.1 ++ f ++ mark.Mark.data, st.2 + chars + (mark.Mark.length : ℤ))
    else if first = some mark then
      some (st.1 ++ mark.Mark.data, st.2 + (mark.Mark.length : ℤ))
    else some st

/-- The `for _, mark := range marks` loop of `formatMarks` over the sorted
slice, threading the builder/cursor state through `markStep`. -/
def markLoop (mx : ℤ) (first : Option Mark) :
    List Mark → List Char × ℤ → Option (List Char × ℤ)
  | [], st => some st
  | mark :: rest, st => (markStep mx first st mark).bind (markLoop mx first rest)

/-- Prefix of `formatMarks` up to and including the closing `"| "`: sort, write the
`"|"` border and the `spaces[0:ls]` padding, run the mark loop from
`cur = ls`, then write the final `field[0:int(scale)-builder.Len()]` fill —
whose length is *not* guarded against being negative — and the closing
border. -/
def formatMarksBody (mn mx : ℤ) (marks : List Mark) : Option (List Char) :=
  let sorted := sortMarks marks
  let ls : ℤ := truncQ ((mn : ℚ) / (mx : ℚ) * (field.length : ℚ))
  (goSlice spaces ls).bind fun pad =>
    (markLoop mx sorted.head? sorted (['|'] ++ pad, ls)).bind fun st =>
      (goSlice field ((field.length : ℤ) - (st.1.length : ℤ))).map fun fill =>
        st.1 ++ fill ++ ['|', ' ']

/-- Model of `formatMarks(min, max int32, marks ...Mark) string`: the body above,
followed by `fmt.Sprint(max)` when `marks[len(marks)-1] == Max` — an index
expression that panics (`none`) when the mark list is empty. -/
def formatMarks (mn mx : ℤ) (marks : List Mark) : Option (List Char) :=
  (formatMarksBody mn mx marks).bind fun body =>
    match (sortMarks marks).getLast? with
    | none => none
    | some last =>
      some (body ++ (if last = MaxSentinel then (toString mx).data else []))

/-! ## Helper lemmas on the reconcilers and strategy application -/

instance : DecidableEq (Except StratError Strat) := fun a b =>
  match a, b with
  | .ok x, .ok y => if h : x = y then .isTrue (by rw [h]) else .isFalse (by simp [h])
  | .error x, .error y => if h : x = y then .isTrue (by rw [h]) else .isFalse (by simp [h])
  | .ok _, .error _ => .isFalse (by simp)
  | .error _, .ok _ => .isFalse (by simp)

lemma reconcileMax_eq {h h' : HpaSpec} (hr : reconcileMax h = some h') :
    ∃ m, h.MinReplicas = some m ∧
      h' = (if m > h.MaxReplicas then { h with MaxReplicas := m } else h) := by
  unfold reconcileMax at hr
  cases hm : h.MinReplicas with
  | none => rw [hm] at hr; exact absurd hr (by simp)
  | some m =>
    rw [hm] at hr
    dsimp only at hr
    refine ⟨m, rfl, ?_⟩
    by_cases hlt : m > h.MaxReplicas
    · rw [if_pos hlt] at hr; rw [if_pos hlt]; exact (Option.some_inj.mp hr).symm
    · rw [if_neg hlt] at hr; rw [if_neg hlt]; exact (Option.some_inj.mp hr).symm

lemma reconcileMin_eq {h h' : HpaSpec} (hr : reconcileMin h = some h') :
    ∃ m, h.MinReplicas = some m ∧
      h' = (if m > h.MaxReplicas
        then { h with MinReplicas := some h.MaxReplicas } else h) := by
  unfold reconcileMin at hr
  cases hm : h.MinReplicas with
  | none => rw [hm] at hr; exact absurd hr (by simp)
  | some m =>
    rw [hm] at hr
    dsimp only at hr
    refine ⟨m, rfl, ?_⟩
    by_cases hlt : m > h.MaxReplicas
    · rw [if_pos hlt] at hr; rw [if_pos hlt]; exact (Option.some_inj.mp hr).symm
    · rw [if_neg hlt] at hr; rw [if_neg hlt]; exact (Option.some_inj.mp hr).symm

lemma reconcileMax_invariant {h h' : HpaSpec} (hr : reconcileMax h = some h') :
    ∃ m, h'.MinReplicas = some m ∧ m ≤ h'.MaxReplicas := by
  obtain ⟨m, hm, rfl⟩ := reconcileMax_eq hr
  by_cases hlt : m > h.MaxReplicas
  · rw [if_pos hlt]; exact ⟨m, hm, le_refl m⟩
  · rw [if_neg hlt]; exact ⟨m, hm, not_lt.mp hlt⟩

lemma reconcileMin_invariant {h h' : HpaSpec} (hr : reconcileMin h = some h') :
    ∃ m, h'.MinReplicas = some m ∧ m ≤ h'.MaxReplicas := by
  obtain ⟨m, hm, rfl⟩ := reconcileMin_eq hr
  by_cases hlt : m > h.MaxReplicas
  · rw [if_pos hlt]; exact ⟨h.MaxReplicas, rfl, le_refl _⟩
  · rw [if_neg hlt]; exact ⟨m, hm, not_lt.mp hlt⟩

/-! ## Claim theorems: the strategy engine -/

/-- Claim C1: for every successfully resolved strategy targeting minimum or
maximum (absolute, percentage or multiplier), after the strategy is applied
the record satisfies minimum ≤ maximum.  The hypothesis
`applyStrat s hpa = some hpa'` says the application completed (it excludes
only the nil-pointer panics of claim C10); no range restriction on the
payloads or the record is needed — including multiplier `f = 0`,
percentage `p = 0` and a pre-update maximum of `0` — because both
reconcilers unconditionally establish the invariant. -/
theorem minLeMax_after_strategy (s : Strat) (hpa hpa' : HpaSpec)
    (hs : targetsMinOrMax s = true) (ha : applyStrat s hpa = some hpa') :
    ∃ m, hpa'.MinReplicas = some m ∧ m ≤ hpa'.MaxReplicas := by
  cases s with
  | setCPU n => exact absurd hs (by simp [targetsMinOrMax])
  | minAbs n => exact reconcileMax_invariant (by simpa [applyStrat] using ha)
  | minPct p =>
    simp only [applyStrat] at ha
    cases hm : hpa.MinReplicas with
    | none => rw [hm] at ha; exact absurd ha (by simp)
    | some m => rw [hm] at ha; dsimp only at ha; exact reconcileMax_invariant ha
  | minMul f =>
    simp only [applyStrat] at ha
    cases hm : hpa.MinReplicas with
    | none => rw [hm] at ha; exact absurd ha (by simp)
    | some m => rw [hm] at ha; dsimp only at ha; exact reconcileMax_invariant ha
  | maxAbs n => exact reconcileMin_invariant (by simpa [applyStrat] using ha)
  | maxPct p => exact reconcileMin_invariant (by simpa [applyStrat] using ha)
  | maxMul f => exact reconcileMin_invariant (by simpa [applyStrat] using ha)

theorem minLeMax_after_strategy_witness :
    ∃ m, (⟨some 5, 5, none⟩ : HpaSpec).MinReplicas = some m ∧
      m ≤ (⟨some 5, 5, none⟩ : HpaSpec).MaxReplicas :=
  minLeMax_after_strategy (.minAbs 5) ⟨some 2, 3, none⟩ ⟨some 5, 5, none⟩
    (by decide) (by decide)

/-- Claim C2, counterexample: resolving the multiplier expression `"1.5x"`
for the maximum field and applying it to a record with maximum 1 leaves the
maximum at `int32(1 * 1.5) = 1` (truncation toward zero), whereas the claim
says the result equals `round(original_maximum * f) = round(1.5) = 2`.
(`1.5` is exactly representable in `float32` and `1 * 1.5` is exact in
`float64`, so the rational model coincides with the Go computation here.) -/
theorem multiplier_rounds_counterexample :
    getStrategy ⟨"", "1.5x", 0⟩ = .ok (.maxMul (3 / 2)) ∧
    applyStrat (.maxMul (3 / 2)) ⟨some 0, 1, none⟩ = some ⟨some 0, 1, none⟩ ∧
    roundSpec ((1 : ℚ) * (3 / 2)) = 2 ∧
    (⟨some 0, 1, none⟩ : HpaSpec).MaxReplicas ≠ 2 := by
  refine ⟨?_, ?_, ?_, by decide⟩
  · simp +decide [getStrategy, NumberMatch, PercentageMatch, MultiplyMatch,
      atoiGo, parseFloatGo, dropLastStr, digitsVal, exprClass]
    norm_num
  · norm_num [applyStrat, reconcileMin, truncQ]
  · norm_num [roundSpec]

/-- Claim C2 as amended: a multiplier strategy sets the targeted field to
`truncQ(original_value * f)` — Go's `int32(...)` conversion truncates toward
zero, it does not round to nearest — and the reconciliation part of the
claim holds as stated: if the new maximum falls below the original minimum,
the minimum is lowered to equal the new maximum exactly, and symmetrically a
minimum-multiplier raises the maximum to the new minimum exactly. -/
theorem multiplier_truncates (f : ℚ) (hpa hpa' : HpaSpec) :
    (applyStrat (.maxMul f) hpa = some hpa' →
      ∃ m, hpa.MinReplicas = some m ∧
        hpa'.MaxReplicas = truncQ ((hpa.MaxReplicas : ℚ) * f) ∧
        hpa'.MinReplicas =
          some (if hpa'.MaxReplicas < m then hpa'.MaxReplicas else m)) ∧
    (applyStrat (.minMul f) hpa = some hpa' →
      ∃ m, hpa.MinReplicas = some m ∧
        hpa'.MinReplicas = some (truncQ ((m : ℚ) * f)) ∧
        hpa'.MaxReplicas =
          (if hpa.MaxReplicas < truncQ ((m : ℚ) * f)
            then truncQ ((m : ℚ) * f) else hpa.MaxReplicas)) := by
  constructor
  · intro ha
    simp only [applyStrat] at ha
    obtain ⟨m, hm, rfl⟩ := reconcileMin_eq ha
    refine ⟨m, hm, ?_⟩
    by_cases hlt : m > truncQ ((hpa.MaxReplicas : ℚ) * f)
    · rw [if_pos hlt]
      refine ⟨rfl, ?_⟩
      rw [if_pos (by exact hlt)]
    · rw [if_neg hlt]
      exact ⟨rfl, by rw [hm, if_neg (by simpa using hlt)]⟩
  · intro ha
    simp only [applyStrat] at ha
    cases hm : hpa.MinReplicas with
    | none => rw [hm] at ha; exact absurd ha (by simp)
    | some m =>
      rw [hm] at ha
      dsimp only at ha
      obtain ⟨m', hm', rfl⟩ := reconcileMax_eq ha
      have hmm : truncQ ((m : ℚ) * f) = m' := by simpa using hm'
      subst hmm
      by_cases hlt : truncQ ((m : ℚ) * f) > hpa.MaxReplicas
      · rw [if_pos hlt]
        exact ⟨m, rfl, rfl, by rw [if_pos (by exact hlt)]⟩
      · rw [if_neg hlt]
        exact ⟨m, rfl, rfl, by rw [if_neg (by simpa using hlt)]⟩

theorem multiplier_truncates_witness :
    ∃ m, (⟨some 4, 10, none⟩ : HpaSpec).MinReplicas = some m ∧
      (⟨some 4, 7, none⟩ : HpaSpec).MaxReplicas =
        truncQ (((⟨some 4, 10, none⟩ : HpaSpec).MaxReplicas : ℚ) * (3 / 4)) ∧
      (⟨some 4, 7, none⟩ : HpaSpec).MinReplicas =
        some (if (⟨some 4, 7, none⟩ : HpaSpec).MaxReplicas < m
          then (⟨some 4, 7, none⟩ : HpaSpec).MaxReplicas else m) :=
  (multiplier_truncates (3 / 4) ⟨some 4, 10, none⟩ ⟨some 4, 7, none⟩).1
    (by norm_num [applyStrat, reconcileMin, truncQ])

/-- Claim C3: a percentage strategy on the minimum field sets the minimum to
`ceil(p/100 * original_maximum)` where `original_maximum` is the pre-update
maximum (the reconciler can only raise the *maximum* afterwards, never touch
the minimum again), and the result is therefore independent of the record's
original minimum: two records with the same maximum end with the same
minimum. -/
theorem percentage_min_formula (p : ℚ) (hpa hpa' : HpaSpec)
    (ha : applyStrat (.minPct p) hpa = some hpa') :
    hpa'.MinReplicas = some ⌈p / 100 * (hpa.MaxReplicas : ℚ)⌉ ∧
    ∀ hpa₂ hpa₂', hpa₂.MaxReplicas = hpa.MaxReplicas →
      applyStrat (.minPct p) hpa₂ = some hpa₂' →
      hpa₂'.MinReplicas = hpa'.MinReplicas := by
  have key : ∀ h h' : HpaSpec, applyStrat (.minPct p) h = some h' →
      h'.MinReplicas = some ⌈p / 100 * (h.MaxReplicas : ℚ)⌉ := by
    intro h h' ha
    simp only [applyStrat] at ha
    cases hm : h.MinReplicas with
    | none => rw [hm] at ha; exact absurd ha (by simp)
    | some m =>
      rw [hm] at ha
      dsimp only at ha
      obtain ⟨m', hm', rfl⟩ := reconcileMax_eq ha
      have hmm : ⌈p / 100 * (h.MaxReplicas : ℚ)⌉ = m' := by simpa using hm'
      subst hmm
      by_cases hlt : ⌈p / 100 * (h.MaxReplicas : ℚ)⌉ > h.MaxReplicas
      · rw [if_pos hlt]
      · rw [if_neg hlt]
  refine ⟨key hpa hpa' ha, fun hpa₂ hpa₂' hmax ha₂ => ?_⟩
  rw [key hpa₂ hpa₂' ha₂, key hpa hpa' ha, hmax]

theorem percentage_min_formula_witness :
    (⟨some 5, 10, none⟩ : HpaSpec).MinReplicas =
      some ⌈(50 : ℚ) / 100 * (((⟨some 1, 10, none⟩ : HpaSpec).MaxReplicas : ℤ) : ℚ)⌉ :=
  (percentage_min_formula 50 ⟨some 1, 10, none⟩ ⟨some 5, 10, none⟩
    (by norm_num [applyStrat, reconcileMax])).1

/-- Claim C4: each reconciler adjusts only the field that was not the
target of the update.  `reconcileMax` (run after minimum-targeting
strategies) never modifies the minimum or the CPU target, and sets the
maximum to the minimum exactly when the minimum exceeds it, leaving it
unchanged otherwise; `reconcileMin` (run after maximum-targeting
strategies) never modifies the maximum or the CPU target, and lowers the
minimum to the maximum exactly when it exceeds the maximum, leaving it
unchanged otherwise. -/
theorem reconcile_frame (h h' : HpaSpec) :
    (reconcileMax h = some h' →
      h'.MinReplicas = h.MinReplicas ∧
      h'.TargetCPUUtilizationPercentage = h.TargetCPUUtilizationPercentage ∧
      ∃ m, h.MinReplicas = some m ∧
        h'.MaxReplicas = (if m > h.MaxReplicas then m else h.MaxReplicas)) ∧
    (reconcileMin h = some h' →
      h'.MaxReplicas = h.MaxReplicas ∧
      h'.TargetCPUUtilizationPercentage = h.TargetCPUUtilizationPercentage ∧
      ∃ m, h.MinReplicas = some m ∧
        h'.MinReplicas = some (if m > h.MaxReplicas then h.MaxReplicas else m)) := by
  constructor
  · intro hr
    obtain ⟨m, hm, rfl⟩ := reconcileMax_eq hr
    by_cases hlt : m > h.MaxReplicas
    · rw [if_pos hlt]
      exact ⟨rfl, rfl, m, hm, by rw [if_pos hlt]⟩
    · rw [if_neg hlt]
      exact ⟨rfl, rfl, m, hm, by rw [if_neg hlt]⟩
  · intro hr
    obtain ⟨m, hm, rfl⟩ := reconcileMin_eq hr
    by_cases hlt : m > h.MaxReplicas
    · rw [if_pos hlt]
      exact ⟨rfl, rfl, m, hm, by rw [if_pos hlt]⟩
    · rw [if_neg hlt]
      exact ⟨rfl, rfl, m, hm, by rw [if_neg hlt]; exact hm⟩

theorem reconcile_frame_witness :
    (⟨some 5, 5, none⟩ : HpaSpec).MinReplicas =
        (⟨some 5, 3, none⟩ : HpaSpec).MinReplicas ∧
      (⟨some 5, 5, none⟩ : HpaSpec).TargetCPUUtilizationPercentage =
        (⟨some 5, 3, none⟩ : HpaSpec).TargetCPUUtilizationPercentage ∧
      ∃ m, (⟨some 5, 3, none⟩ : HpaSpec).MinReplicas = some m ∧
        (⟨some 5, 5, none⟩ : HpaSpec).MaxReplicas =
          (if m > (⟨some 5, 3, none⟩ : HpaSpec).MaxReplicas then m
            else (⟨some 5, 3, none⟩ : HpaSpec).MaxReplicas) :=
  (reconcile_frame ⟨some 5, 3, none⟩ ⟨some 5, 5, none⟩).1 (by decide)

/-- Claim C5: `getStrategy` checks the CPU-target field first, then the
minimum, then the maximum, producing a strategy for exactly the first field
that is set (a field whose string matches none of the three expression
shapes counts as not set); when the CPU target is not positive and neither
string matches any shape, resolution returns the "invalid arguments" error
and no strategy. -/
theorem strategy_resolution_order (program : Hpa) :
    (0 < program.CPUTarget →
      getStrategy program = .ok (.setCPU program.CPUTarget)) ∧
    (program.CPUTarget ≤ 0 → matchesAny program.Minimum = true →
      resolvesToward (getStrategy program) targetsMin) ∧
    (program.CPUTarget ≤ 0 → matchesAny program.Minimum = false →
      matchesAny program.Maximum = true →
      resolvesToward (getStrategy program) targetsMax) ∧
    (program.CPUTarget ≤ 0 → matchesAny program.Minimum = false →
      matchesAny program.Maximum = false →
      getStrategy program = .error .invalidArguments) := by
  refine ⟨?_, ?_, ?_, ?_⟩
  · intro hc
    unfold getStrategy
    rw [if_pos hc]
  · intro hc _
    unfold getStrategy
    rw [if_neg (not_lt.mpr hc)]
    by_cases hN : NumberMatch program.Minimum
    · rw [if_pos hN]
      cases atoiGo program.Minimum <;> simp [resolvesToward, targetsMin]
    · rw [if_neg hN]
      by_cases hP : PercentageMatch program.Minimum
      · rw [if_pos hP]
        cases parseFloatGo (dropLastStr program.Minimum) <;>
          simp [resolvesToward, targetsMin]
      · rw [if_neg hP]
        have hX : MultiplyMatch program.Minimum = true := by
          have habc : (NumberMatch program.Minimum = true ∨
              PercentageMatch program.Minimum = true) ∨
              MultiplyMatch program.Minimum = true := by
            simpa [matchesAny, Bool.or_eq_true] using
              ‹matchesAny program.Minimum = true›
          rcases habc with (h | h) | h
          · exact absurd h hN
          · exact absurd h hP
          · exact h
        rw [if_pos hX]
        cases parseFloatGo (dropLastStr program.Minimum) <;>
          simp [resolvesToward, targetsMin]
  · intro hc hmin hmax
    unfold getStrategy
    rw [if_neg (not_lt.mpr hc)]
    have hmin' : (NumberMatch program.Minimum = false ∧
        PercentageMatch program.Minimum = false) ∧
        MultiplyMatch program.Minimum = false := by
      simpa [matchesAny, Bool.or_eq_false_iff] using hmin
    rw [if_neg (by simp [hmin'.1.1]), if_neg (by simp [hmin'.1.2]),
      if_neg (by simp [hmin'.2])]
    by_cases hN : NumberMatch program.Maximum
    · rw [if_pos hN]
      cases atoiGo program.Maximum <;> simp [resolvesToward, targetsMax]
    · rw [if_neg hN]
      by_cases hP : PercentageMatch program.Maximum
      · rw [if_pos hP]
        cases parseFloatGo (dropLastStr program.Maximum) <;>
          simp [resolvesToward, targetsMax]
      · rw [if_neg hP]
        have hX : MultiplyMatch program.Maximum = true := by
          have habc : (NumberMatch program.Maximum = true ∨
              PercentageMatch program.Maximum = true) ∨
              MultiplyMatch program.Maximum = true := by
            simpa [matchesAny, Bool.or_eq_true] using hmax
          rcases habc with (h | h) | h
          · exact absurd h hN
          · exact absurd h hP
          · exact h
        rw [if_pos hX]
        cases parseFloatGo (dropLastStr program.Maximum) <;>
          simp [resolvesToward, targetsMax]
  · intro hc hmin hmax
    unfold getStrategy
    rw [if_neg (not_lt.mpr hc)]
    have hmin' : (NumberMatch program.Minimum = false ∧
        PercentageMatch program.Minimum = false) ∧
        MultiplyMatch program.Minimum = false := by
      simpa [matchesAny, Bool.or_eq_false_iff] using hmin
    have hmax' : (NumberMatch program.Maximum = false ∧
        PercentageMatch program.Maximum = false) ∧
        MultiplyMatch program.Maximum = false := by
      simpa [matchesAny, Bool.or_eq_false_iff] using hmax
    rw [if_neg (by simp [hmin'.1.1]), if_neg (by simp [hmin'.1.2]),
      if_neg (by simp [hmin'.2]), if_neg (by simp [hmax'.1.1]),
      if_neg (by simp [hmax'.1.2]), if_neg (by simp [hmax'.2])]

theorem strategy_resolution_order_witness :
    getStrategy ⟨"abc", "", 0⟩ = .error .invalidArguments :=
  (strategy_resolution_order ⟨"abc", "", 0⟩).2.2.2 (by decide) (by decide)
    (by decide)

/-- Claim C6: the percentage expression `"100%"` on the maximum field
resolves to the percentage-maximum strategy with payload 100, and applying
that strategy leaves the maximum unchanged (`ceil(100/100 * max) = max`,
and the subsequent `reconcileMin` can only lower the minimum), so a second
application yields the same maximum as the first: percentage-of-self at
100% is a fixed point of the maximum. -/
theorem maxPct100_fixed_point :
    getStrategy ⟨"", "100%", 0⟩ = .ok (.maxPct 100) ∧
    ∀ hpa h₁ h₂ : HpaSpec, applyStrat (.maxPct 100) hpa = some h₁ →
      applyStrat (.maxPct 100) h₁ = some h₂ →
      h₁.MaxReplicas = hpa.MaxReplicas ∧ h₂.MaxReplicas = h₁.MaxReplicas := by
  constructor
  · simp +decide [getStrategy, NumberMatch, PercentageMatch, MultiplyMatch,
      atoiGo, parseFloatGo, dropLastStr, digitsVal, exprClass]
  · have key : ∀ h h' : HpaSpec, applyStrat (.maxPct 100) h = some h' →
        h'.MaxReplicas = h.MaxReplicas := by
      intro h h' ha
      simp only [applyStrat] at ha
      have hceil : ⌈(100 : ℚ) / 100 * (h.MaxReplicas : ℚ)⌉ = h.MaxReplicas := by
        norm_num
      rw [hceil] at ha
      obtain ⟨m, hm, rfl⟩ := reconcileMin_eq ha
      by_cases hlt : m > ({ h with MaxReplicas := h.MaxReplicas } : HpaSpec).MaxReplicas
      · rw [if_pos hlt]
      · rw [if_neg hlt]
    exact fun hpa h₁ h₂ h1 h2 => ⟨key hpa h₁ h1, key h₁ h₂ h2⟩

theorem maxPct100_fixed_point_witness :
    (⟨some 2, 7, none⟩ : HpaSpec).MaxReplicas =
        (⟨some 2, 7, none⟩ : HpaSpec).MaxReplicas ∧
      (⟨some 2, 7, none⟩ : HpaSpec).MaxReplicas =
        (⟨some 2, 7, none⟩ : HpaSpec).MaxReplicas :=
  maxPct100_fixed_point.2 ⟨some 2, 7, none⟩ ⟨some 2, 7, none⟩ ⟨some 2, 7, none⟩
    (by norm_num [applyStrat, reconcileMin])
    (by norm_num [applyStrat, reconcileMin])

/-- Claim C10, counterexample: the claim says applying *any* resolved
strategy to a record whose minimum-replicas pointer is nil crashes.  But the
absolute-minimum strategy (resolved from the plain number `"5"`) *replaces*
the pointer (`hpa.Spec.MinReplicas = &minimum`) before `reconcileMax`
dereferences it, so on a nil-minimum record it completes normally instead
of crashing. -/
theorem nil_min_crash_counterexample :
    getStrategy ⟨"5", "", 0⟩ = .ok (.minAbs 5) ∧
    applyStrat (.minAbs 5) ⟨none, 10, none⟩ = some ⟨some 5, 10, none⟩ ∧
    applyStrat (.minAbs 5) ⟨none, 10, none⟩ ≠ none := by
  refine ⟨by decide, by decide, by decide⟩

/-- Claim C10 as amended: both reconcilers dereference the minimum-replicas
pointer unconditionally, so they and every resolved strategy that runs them
on the *original* pointer — percentage-minimum (which also writes through
the pointer rather than replacing it), multiplier-minimum, and all three
maximum strategies — crash (`none`) on a record whose minimum pointer is
nil.  The two exceptions are the absolute-minimum strategy, which replaces
the pointer before reconciliation reads it, and the CPU-target strategy,
which never touches the minimum pointer at all (it dereferences the CPU
pointer instead). -/
theorem nil_min_crash (p f : ℚ) (n k c : ℤ) (hpa : HpaSpec)
    (hnil : hpa.MinReplicas = none) :
    reconcileMax hpa = none ∧
    reconcileMin hpa = none ∧
    applyStrat (.minPct p) hpa = none ∧
    applyStrat (.minMul f) hpa = none ∧
    applyStrat (.maxAbs n) hpa = none ∧
    applyStrat (.maxPct p) hpa = none ∧
    applyStrat (.maxMul f) hpa = none ∧
    applyStrat (.minAbs n) hpa =
      some (if n > hpa.MaxReplicas
        then { hpa with MinReplicas := some n, MaxReplicas := n }
        else { hpa with MinReplicas := some n }) ∧
    (hpa.TargetCPUUtilizationPercentage = some c →
      applyStrat (.setCPU k) hpa =
        some { hpa with TargetCPUUtilizationPercentage := some k }) := by
  refine ⟨?_, ?_, ?_, ?_, ?_, ?_, ?_, ?_, ?_⟩
  · simp [reconcileMax, hnil]
  · simp [reconcileMin, hnil]
  · simp [applyStrat, hnil]
  · simp [applyStrat, hnil]
  · simp [applyStrat, reconcileMin, hnil]
  · simp [applyStrat, reconcileMin, hnil]
  · simp [applyStrat, reconcileMin, hnil]
  · simp only [applyStrat, reconcileMax]
    by_cases hlt : n > hpa.MaxReplicas
    · rw [if_pos hlt, if_pos hlt]
    · rw [if_neg hlt, if_neg hlt]
  · intro hc
    simp [applyStrat, hc]

theorem nil_min_crash_witness :
    reconcileMax ⟨none, 10, none⟩ = none ∧
    reconcileMin ⟨none, 10, none⟩ = none ∧
    applyStrat (.minPct 50) ⟨none, 10, none⟩ = none ∧
    applyStrat (.minMul 2) ⟨none, 10, none⟩ = none ∧
    applyStrat (.maxAbs 3) ⟨none, 10, none⟩ = none ∧
    applyStrat (.maxPct 50) ⟨none, 10, none⟩ = none ∧
    applyStrat (.maxMul 2) ⟨none, 10, none⟩ = none ∧
    applyStrat (.minAbs 3) ⟨none, 10, none⟩ =
      some (if (3 : ℤ) > (⟨none, 10, none⟩ : HpaSpec).MaxReplicas
        then { (⟨none, 10, none⟩ : HpaSpec) with
          MinReplicas := some 3, MaxReplicas := 3 }
        else { (⟨none, 10, none⟩ : HpaSpec) with MinReplicas := some 3 }) ∧
    ((⟨none, 10, none⟩ : HpaSpec).TargetCPUUtilizationPercentage = some 1 →
      applyStrat (.setCPU 7) ⟨none, 10, none⟩ =
        some { (⟨none, 10, none⟩ : HpaSpec) with
          TargetCPUUtilizationPercentage := some 7 }) :=
  nil_min_crash 50 2 3 7 1 ⟨none, 10, none⟩ rfl

/-! ## Claim theorems: the renderer -/

/-- Claim C9 is a code bug, exhibited here: with `max = 100`, `min = 0` and
the single in-range mark `{"99%", 99}` (exactly what `printHPAs` passes for
a CPU gauge at 99 percent), the mark loop writes 38 filler characters plus
the 3-character label after the 1-character border, so `builder.Len() = 42`
and the final fill computes `field[0 : 40 - 42]` — a slice with negative
length, which panics.  The claim (and the spec's edge-case rule) says any
negative or zero computed gap yields no filler and never a crash; the
per-mark gaps are guarded, but the final fill on line 100 of `output.go` is
not. -/
theorem final_fill_negative_crash :
    formatMarks 0 100 [⟨"99%", 99⟩] = none := by
  simp +decide [formatMarks, formatMarksBody, sortMarks, markLoop, markStep,
    goSlice, field, spaces, truncQ, rleMark]
  norm_num
  decide

/-- Claim C8: rendering `max = 100`, leading offset (minimum) `50`, and the
single mark `{"X", 50}` produces the gauge `|` + 20 blanks + `X` + 18 dots
+ `| `: the blank padding after the opening border has length 20 — exactly
half the configured width of 40 — with `X` immediately following it, and
the total length is 42 = configured width + 2 border characters. -/
theorem render_half_gauge :
    formatMarks 50 100 [⟨"X", 50⟩] =
      some (['|'] ++ List.replicate 20 ' ' ++ ['X']
        ++ List.replicate 18 '.' ++ ['|', ' ']) ∧
    (['|'] ++ List.replicate 20 ' ' ++ ['X']
        ++ List.replicate 18 '.' ++ ['|', ' ']).length = 42 ∧
    (List.replicate 20 ' ').length = field.length / 2 := by
  refine ⟨?_, by decide, by decide⟩
  simp +decide [formatMarks, formatMarksBody, sortMarks, markLoop, markStep,
    goSlice, field, spaces, truncQ, rleMark]
  norm_num
  decide

/-- The in-range test of the renderer's skip rule: `mark.Postion ≤ max`
(the loop skips exactly the marks with `mark.Postion > int(max)`). -/
def markInRange (mx : ℤ) (m : Mark) : Bool := m.Postion ≤ mx

lemma markInRange_iff {mx : ℤ} {m : Mark} :
    markInRange mx m = true ↔ m.Postion ≤ mx := by
  simp [markInRange]

lemma markStep_skip (mx : ℤ) (first : Option Mark) (st : List Char × ℤ)
    (mark : Mark) (h : mark.Postion > mx) :
    markStep mx first st mark = some st := by
  unfold markStep
  rw [if_pos h]

lemma markLoop_filter (mx : ℤ) (first : Option Mark) :
    ∀ (l : List Mark) (st : List Char × ℤ),
      markLoop mx first l st =
        markLoop mx first (l.filter (markInRange mx)) st := by
  intro l
  induction l with
  | nil => intro st; rfl
  | cons hd t IH =>
    intro st
    by_cases hp : markInRange mx hd
    · rw [List.filter_cons_of_pos hp]
      simp only [markLoop]
      cases hstep : markStep mx first st hd with
      | none => rfl
      | some st' => simp only [Option.some_bind]; exact IH st'
    · have hgt : hd.Postion > mx := by
        simpa [markInRange_iff] using hp
      rw [List.filter_cons_of_neg hp]
      simp only [markLoop, markStep_skip mx first st hd hgt, Option.some_bind]
      exact IH st

lemma filter_orderedInsert (mx : ℤ) (a : Mark) :
    ∀ l : List Mark, l.Sorted rleMark →
      (List.orderedInsert rleMark a l).filter (markInRange mx) =
        (if markInRange mx a
          then List.orderedInsert rleMark a (l.filter (markInRange mx))
          else l.filter (markInRange mx)) := by
  intro l
  induction l with
  | nil =>
    intro _
    by_cases hpa : markInRange mx a
    · simp [List.orderedInsert, hpa]
    · simp [List.orderedInsert, hpa]
  | cons b t IH =>
    intro hs
    obtain ⟨hb, ht⟩ := List.sorted_cons.mp hs
    by_cases hab : rleMark a b
    · simp only [List.orderedInsert]
      rw [if_pos hab]
      by_cases hpa : markInRange mx a
      · rw [if_pos hpa, List.filter_cons_of_pos hpa]
        by_cases hpb : markInRange mx b
        · rw [List.filter_cons_of_pos hpb]
          simp only [List.orderedInsert]
          rw [if_pos hab]
        · rw [List.filter_cons_of_neg hpb]
          have ht0 : t.filter (markInRange mx) = [] := by
            refine List.filter_eq_nil_iff.mpr (fun x hx => ?_)
            have hbx : rleMark b x := hb x hx
            have hgtb : ¬ b.Postion ≤ mx := by simpa [markInRange_iff] using hpb
            simp only [markInRange_iff]
            intro hxle
            exact hgtb (le_trans hbx hxle)
          rw [ht0]
          simp [List.orderedInsert]
      · rw [if_neg hpa, List.filter_cons_of_neg hpa]
    · simp only [List.orderedInsert]
      rw [if_neg hab]
      have hba : rleMark b a := (IsTotal.total (r := rleMark) a b).resolve_left hab
      by_cases hpa : markInRange mx a
      · have hpb : markInRange mx b = true := by
          rw [markInRange_iff]
          exact le_trans hba (markInRange_iff.mp hpa)
        rw [if_pos hpa, List.filter_cons_of_pos hpb, List.filter_cons_of_pos hpb]
        simp only [List.orderedInsert]
        rw [if_neg hab, IH ht, if_pos hpa]
      · rw [if_neg hpa]
        by_cases hpb : markInRange mx b
        · rw [List.filter_cons_of_pos hpb, List.filter_cons_of_pos hpb,
            IH ht, if_neg hpa]
        · rw [List.filter_cons_of_neg hpb, List.filter_cons_of_neg hpb,
            IH ht, if_neg hpa]

lemma sortMarks_filter (mx : ℤ) (l : List Mark) :
    sortMarks (l.filter (markInRange mx)) =
      (sortMarks l).filter (markInRange mx) := by
  induction l with
  | nil => rfl
  | cons x t IH =>
    by_cases hpx : markInRange mx x
    · rw [List.filter_cons_of_pos hpx]
      simp only [sortMarks, List.insertionSort]
      rw [show List.insertionSort rleMark (List.filter (markInRange mx) t)
          = sortMarks (List.filter (markInRange mx) t) from rfl, IH]
      rw [filter_orderedInsert mx x _ (List.sorted_insertionSort rleMark t),
        if_pos hpx]
      rfl
    · rw [List.filter_cons_of_neg hpx]
      simp only [sortMarks, List.insertionSort] at IH ⊢
      rw [IH, filter_orderedInsert mx x _ (List.sorted_insertionSort rleMark t),
        if_neg hpx]

lemma head_filter_sorted (mx : ℤ) (l : List Mark) (hs : l.Sorted rleMark)
    (hne : l.filter (markInRange mx) ≠ []) :
    (l.filter (markInRange mx)).head? = l.head? := by
  cases l with
  | nil => simp at hne
  | cons b t =>
    obtain ⟨hb, _⟩ := List.sorted_cons.mp hs
    by_cases hpb : markInRange mx b
    · rw [List.filter_cons_of_pos hpb]
      rfl
    · exfalso
      apply hne
      rw [List.filter_cons_of_neg hpb]
      refine List.filter_eq_nil_iff.mpr (fun x hx => ?_)
      have hgtb : ¬ b.Postion ≤ mx := by simpa [markInRange_iff] using hpb
      simp only [markInRange_iff]
      intro hxle
      exact hgtb (le_trans (hb x hx) hxle)

/-- Claim C7: rendering is unchanged, character for character, between the
borders when every mark with `Postion > max` is removed from the input:
out-of-range marks contribute nothing to the gauge — their labels are never
written and they are not clamped to the right edge (the loop `continue`s
before touching the builder).  Stated on `formatMarksBody`, the output up to
and including the closing border; the only part of `formatMarks` outside it
is the numeric suffix appended *after* the closing border for the `Max`
sentinel. -/
theorem skipped_marks_render_identically (mn mx : ℤ) (marks : List Mark)
    (hmx : 0 < mx) :
    formatMarksBody mn mx marks =
      formatMarksBody mn mx (marks.filter (markInRange mx)) := by
  have hsorted : (sortMarks marks).Sorted rleMark :=
    List.sorted_insertionSort rleMark marks
  have key : ∀ st : List Char × ℤ,
      markLoop mx (sortMarks marks).head? (sortMarks marks) st =
        markLoop mx (sortMarks (marks.filter (markInRange mx))).head?
          (sortMarks (marks.filter (markInRange mx))) st := by
    intro st
    rw [sortMarks_filter]
    rcases hfe : (sortMarks marks).filter (markInRange mx) with _ | ⟨a, t⟩
    · rw [markLoop_filter mx (sortMarks marks).head? (sortMarks marks) st, hfe]
      rfl
    · rw [markLoop_filter mx (sortMarks marks).head? (sortMarks marks) st,
        ← head_filter_sorted mx (sortMarks marks) hsorted (by rw [hfe]; simp),
        hfe]
  simp only [formatMarksBody]
  cases goSlice spaces (truncQ ((mn : ℚ) / (mx : ℚ) * (field.length : ℚ))) with
  | none => rfl
  | some pad => simp only [Option.some_bind]; rw [key]

theorem skipped_marks_render_identically_witness :
    formatMarksBody 0 100 [⟨"A", 150⟩, ⟨"B", 50⟩] =
      formatMarksBody 0 100
        ([⟨"A", 150⟩, ⟨"B", 50⟩].filter (markInRange 100)) :=
  skipped_marks_render_identically 0 100 [⟨"A", 150⟩, ⟨"B", 50⟩] (by decide)
